import Mathlib

/-!
Verification of the batching/coalescing loaders of the `dataloader` crate.

The development shallowly embeds the Rust sources:

* `src/cached.rs` — the cached loader (`Loader` with `State { completed, pending }`).
  `HashMap<K, Result<V, E>>` (the `completed` cache) is modelled as an association
  list with unique keys, `HashSet<K>` (the `pending` set) as a duplicate-free
  `List K`.  `Result<V, E>` is `Except E V` (`Ok v` = `.ok v`, `Err e` = `.error e`).
  The user-supplied batch function `BatchFn::load : &[K] -> HashMap<K, Result<V, E>>`
  is a pure function `List K → List (K × Except E V)` (the returned map, iterated).
  `async fn load` consists of two critical sections separated by a yield loop;
  each section is embedded as a state transformer which additionally records the
  list of key lists dispatched to the batch function.

* `src/non_cached.rs` — the queue-based loader (`LoadFuture2::poll`) for the
  result-distribution and size-mismatch logic, and the lock/await ordering of
  `cached::Loader::load` as an explicit event trace.
-/

namespace Dataloader

/-- Model of `Result<V, E>`: `Ok v` is `.ok v`, `Err e` is `.error e`. -/
abbrev Res (V E : Type) : Type := Except E V

/-- `HashMap::get` on the association-list model: first entry with the key. -/
def mapGet {K A : Type} [DecidableEq K] : List (K × A) → K → Option A
  | [], _ => none
  | (k', a) :: m, k => if k' = k then some a else mapGet m k

/-- `HashMap::remove` on the association-list model: drop all entries for the key
(on a unique-key list this is the single entry). -/
def mapRemove {K A : Type} [DecidableEq K] (m : List (K × A)) (k : K) : List (K × A) :=
  m.filter (fun p => decide (p.1 ≠ k))

/-- `HashMap::insert` on the association-list model: the new binding shadows and
replaces any previous binding of the key. -/
def mapInsert {K A : Type} [DecidableEq K] (m : List (K × A)) (k : K) (a : A) : List (K × A) :=
  (k, a) :: mapRemove m k

/-- `for (k, v) in load_ret.into_iter() { completed.insert(k, v) }`:
fold `mapInsert` over the pairs returned by the batch function. -/
def insertAll {K A : Type} [DecidableEq K] (m : List (K × A)) (ps : List (K × A)) :
    List (K × A) :=
  ps.foldl (fun acc p => mapInsert acc p.1 p.2) m

/-- `HashSet::insert` on the list model: append the element unless present. -/
def hsInsert {K : Type} [DecidableEq K] (s : List K) (k : K) : List K :=
  if k ∈ s then s else s ++ [k]

/-- `State` of `cached::Loader` (src/cached.rs lines 46-52): the `completed`
result cache and the `pending` key set. -/
structure LoaderState (K V E : Type) where
  completed : List (K × Res V E)
  pending : List K
deriving Repr

/-- The freshly constructed state: `State::with_cache(HashMap::new())`. -/
def initState (K V E : Type) : LoaderState K V E := ⟨[], []⟩

/-- Outcome of the first critical section of `cached::Loader::load`
(src/cached.rs lines 143-165). -/
inductive Step1Out (V E : Type) where
  /-- the section returned a result (cache hit, or eager dispatch succeeded) -/
  | ret (r : Res V E)
  /-- eager dispatch happened but the key was missing from the result
  (`unwrap_or_else(|| panic!(..))`) -/
  | panicked
  /-- fell through to the yield loop (`drop(state)`) -/
  | deferOut
deriving Repr

/-- First critical section of `cached::Loader::load` (src/cached.rs 143-165):
completed-cache hit returns; otherwise the key is admitted into `pending`
unless already there; if `pending` then reaches `max_batch_size` the whole
pending set is drained and dispatched eagerly before returning.  Returns the
outcome, the post-section state, and the batches dispatched. -/
def loadStep1 {K V E : Type} [DecidableEq K] (max : Nat)
    (bf : List K → List (K × Res V E)) (s : LoaderState K V E) (key : K) :
    Step1Out V E × LoaderState K V E × List (List K) :=
  match mapGet s.completed key with
  | some v => (.ret v, s, [])
  | none =>
    if key ∈ s.pending then (.deferOut, s, [])
    else
      let pending := hsInsert s.pending key
      if max ≤ pending.length then
        let keys := pending
        let completed := insertAll s.completed (bf keys)
        match mapGet completed key with
        | some v => (.ret v, ⟨completed, []⟩, [keys])
        | none => (.panicked, ⟨completed, []⟩, [keys])
      else (.deferOut, ⟨s.completed, pending⟩, [])

/-- Second critical section of `cached::Loader::load` (src/cached.rs 174-194),
entered after the yield loop: completed-cache hit returns; otherwise a
non-empty pending set is drained and dispatched, then the key is looked up
(`none` models the `panic!`). -/
def loadStep2 {K V E : Type} [DecidableEq K]
    (bf : List K → List (K × Res V E)) (s : LoaderState K V E) (key : K) :
    Option (Res V E) × LoaderState K V E × List (List K) :=
  match mapGet s.completed key with
  | some v => (some v, s, [])
  | none =>
    if s.pending = [] then (mapGet s.completed key, s, [])
    else
      let keys := s.pending
      let completed := insertAll s.completed (bf keys)
      (mapGet completed key, ⟨completed, []⟩, [keys])

/-- Result of a whole `load` call: the returned value (`none` models a
`panic!`), the final state, and the batches dispatched, in order. -/
structure LoadRes (K V E : Type) where
  out : Option (Res V E)
  st : LoaderState K V E
  disp : List (List K)
deriving Repr

/-- A whole `cached::Loader::load` call under single-task (sequential)
semantics: the first critical section, then — the yields being no-ops with no
other task running — the second one. -/
def loadSeq {K V E : Type} [DecidableEq K] (max : Nat)
    (bf : List K → List (K × Res V E)) (s : LoaderState K V E) (key : K) :
    LoadRes K V E :=
  match loadStep1 max bf s key with
  | (.ret r, s1, d) => ⟨some r, s1, d⟩
  | (.panicked, s1, d) => ⟨none, s1, d⟩
  | (.deferOut, s1, d) =>
    let r2 := loadStep2 bf s1 key
    ⟨r2.1, r2.2.1, d ++ r2.2.2⟩

/-- `cached::Loader::prime` (src/cached.rs 253-256):
`state.completed.insert(key, Ok(val))`, unconditionally. -/
def primeOp {K V E : Type} [DecidableEq K] (s : LoaderState K V E) (key : K) (val : V) :
    LoaderState K V E :=
  { s with completed := mapInsert s.completed key (.ok val) }

/-- `cached::Loader::clear` (src/cached.rs 258-261):
`state.completed.remove(&key);` — the returned `Option` is discarded and the
function returns `()`, so the model returns only the new state. -/
def clearOp {K V E : Type} [DecidableEq K] (s : LoaderState K V E) (key : K) :
    LoaderState K V E :=
  { s with completed := mapRemove s.completed key }

/-- `cached::Loader::clear_all` (src/cached.rs 263-266): `state.completed.clear()`. -/
def clearAllOp {K V E : Type} (s : LoaderState K V E) : LoaderState K V E :=
  { s with completed := [] }

/-- Accumulator of the admission loop of `cached::Loader::load_many`
(src/cached.rs 197-218): the shared state, the local `ret` map and `rest`
vector, the batches dispatched so far, and — as a ghost log for stating
coalescing — the keys inserted into `pending` by this call, in order. -/
structure LMAcc (K V E : Type) where
  st : LoaderState K V E
  ret : List (K × Res V E)
  rest : List K
  disp : List (List K)
  ins : List K
deriving Repr

/-- One iteration of the `for key in keys` admission loop of `load_many`
(src/cached.rs 200-218): completed hit goes straight to `ret`; otherwise the
key is admitted into `pending` unless already there (dispatching eagerly when
`pending` reaches `max_batch_size`) and pushed onto `rest`. -/
def lmAdmit {K V E : Type} [DecidableEq K] (max : Nat)
    (bf : List K → List (K × Res V E)) (a : LMAcc K V E) (key : K) : LMAcc K V E :=
  match mapGet a.st.completed key with
  | some v => { a with ret := mapInsert a.ret key v }
  | none =>
    if key ∈ a.st.pending then { a with rest := a.rest ++ [key] }
    else
      let pending := hsInsert a.st.pending key
      if max ≤ pending.length then
        let completed := insertAll a.st.completed (bf pending)
        { a with
          st := ⟨completed, []⟩
          rest := a.rest ++ [key]
          disp := a.disp ++ [pending]
          ins := a.ins ++ [key] }
      else
        { a with
          st := ⟨a.st.completed, pending⟩
          rest := a.rest ++ [key]
          ins := a.ins ++ [key] }

/-- The whole admission loop of `load_many` over the input key vector. -/
def lmAdmitAll {K V E : Type} [DecidableEq K] (max : Nat)
    (bf : List K → List (K × Res V E)) (a : LMAcc K V E) (keys : List K) : LMAcc K V E :=
  keys.foldl (lmAdmit max bf) a

/-- The pickup loop of `load_many` (src/cached.rs 240-247): each `rest` key is
looked up in `completed` and inserted into `ret`; a missing key models the
`panic!` (`none`). -/
def lmFill {K V E : Type} [DecidableEq K] (completed : List (K × Res V E))
    (ret : List (K × Res V E)) : List K → Option (List (K × Res V E))
  | [] => some ret
  | k :: ks =>
    match mapGet completed k with
    | some v => lmFill completed (mapInsert ret k v) ks
    | none => none

/-- Result of a whole `load_many` call: the returned map (`none` models a
`panic!`), the final state, the dispatched batches, and the ghost log of keys
this call inserted into `pending`. -/
structure LMRes (K V E : Type) where
  out : Option (List (K × Res V E))
  st : LoaderState K V E
  disp : List (List K)
  ins : List K
deriving Repr

/-- Second critical section of `load_many` (src/cached.rs 228-248), entered
after the yield loop: nothing happens when `rest` is empty; otherwise a
non-empty pending set is drained and dispatched, and every `rest` key is
picked up from `completed` into `ret`. -/
def lmFinish {K V E : Type} [DecidableEq K]
    (bf : List K → List (K × Res V E)) (a : LMAcc K V E) : LMRes K V E :=
  if a.rest = [] then ⟨some a.ret, a.st, a.disp, a.ins⟩
  else
    let step :=
      if a.st.pending = [] then (a.st, a.disp)
      else
        (⟨insertAll a.st.completed (bf a.st.pending), []⟩, a.disp ++ [a.st.pending])
    ⟨lmFill step.1.completed a.ret a.rest, step.1, step.2, a.ins⟩

/-- A whole `cached::Loader::load_many` call under single-task (sequential)
semantics: the admission loop, then — the yields being no-ops with no other
task running — the drain-and-pickup section. -/
def loadManySeq {K V E : Type} [DecidableEq K] (max : Nat)
    (bf : List K → List (K × Res V E)) (s : LoaderState K V E) (keys : List K) :
    LMRes K V E :=
  lmFinish bf (lmAdmitAll max bf ⟨s, [], [], [], []⟩ keys)

/-! ### Construction paths and their `max_batch_size` checks -/

/-- Configuration carried by `cached::Loader` (src/cached.rs 66-78): the
shared state is tracked separately, so construction is modelled by the two
configuration fields. -/
structure CachedCfg where
  max_batch_size : Nat
  yield_count : Nat
deriving Repr, DecidableEq

/-- `cached::Loader::with_cache` (src/cached.rs 119-126): fresh state,
`max_batch_size: 200`, `yield_count: 10`, no validation. -/
def cachedWithCache : CachedCfg := ⟨200, 10⟩

/-- `cached::Loader::new` (src/cached.rs 106-108): delegates to `with_cache`. -/
def cachedNew : CachedCfg := cachedWithCache

/-- `cached::Loader::with_max_batch_size` (src/cached.rs 128-131): sets the
field with no validation. -/
def withMaxBatchSize (c : CachedCfg) (n : Nat) : CachedCfg :=
  { c with max_batch_size := n }

/-- `cached::Loader::with_yield_count` (src/cached.rs 133-136). -/
def withYieldCount (c : CachedCfg) (n : Nat) : CachedCfg :=
  { c with yield_count := n }

/-- `non_cached::Loader::new` (src/non_cached.rs 161-177):
`assert!(batch_fn.max_batch_size() > 0)`; the assertion failure (abort) is
modelled as `none`.  The argument is the batch function's declared
`max_batch_size()`. -/
def nonCachedNew (batchFnMaxBatchSize : Nat) : Option Nat :=
  if 0 < batchFnMaxBatchSize then some batchFnMaxBatchSize else none

/-- `Loader::new` of the worker-thread loader (src/lib.rs 70-77): the same
`assert!(batch_fn.max_batch_size() > 0)` guard. -/
def libLoaderNew (batchFnMaxBatchSize : Nat) : Option Nat :=
  if 0 < batchFnMaxBatchSize then some batchFnMaxBatchSize else none

/-! ### Lock/await event trace of `cached::Loader::load`

`cached::Loader::load` (src/cached.rs 142-194) is transcribed as the sequence
of lock, await and yield events it performs, one trace per combination of its
branch conditions: `hit1` = completed hit in the first section, `pend` =
key already pending, `eager` = pending reached `max_batch_size` after
insertion, `hit2` = completed hit in the second section, `empty2` =
pending empty in the second section. -/

/-- Events relevant to the lock discipline of `cached::Loader::load`. -/
inductive LockEv where
  /-- `self.state.lock().await` -/
  | acqState
  /-- the `MutexGuard` on `state` is dropped (explicit `drop` or scope end) -/
  | relState
  /-- `self.load_fn.lock().await` -/
  | acqLoadFn
  /-- the `MutexGuard` on `load_fn` is dropped -/
  | relLoadFn
  /-- `load_fn.load(keys.as_ref()).await` — awaiting the batch function -/
  | awaitBatchFn
  /-- one `yield_now().await` iteration -/
  | yieldNow
deriving Repr, DecidableEq

/-- The event trace of one `cached::Loader::load` call (src/cached.rs 142-194),
by branch: a guard held at `return` is dropped at the return, which the trace
records as a trailing `relState`. -/
def loadLockTrace (hit1 pend eager hit2 empty2 : Bool) (yieldCount : Nat) : List LockEv :=
  [LockEv.acqState] ++
  (if hit1 then [LockEv.relState]
   else if !pend && eager then
    [LockEv.acqLoadFn, LockEv.awaitBatchFn, LockEv.relLoadFn, LockEv.relState]
   else
    [LockEv.relState] ++ List.replicate yieldCount LockEv.yieldNow ++ [LockEv.acqState] ++
    (if hit2 then [LockEv.relState]
     else
      (if empty2 then []
       else [LockEv.acqLoadFn, LockEv.awaitBatchFn, LockEv.relLoadFn]) ++ [LockEv.relState]))

/-- Does some `awaitBatchFn` event occur while the `state` lock is held?
Scans the trace tracking whether the current task holds the `state` mutex. -/
def awaitWhileStateHeld (held : Bool) : List LockEv → Bool
  | [] => false
  | LockEv.acqState :: tr => awaitWhileStateHeld true tr
  | LockEv.relState :: tr => awaitWhileStateHeld false tr
  | LockEv.awaitBatchFn :: tr => held || awaitWhileStateHeld held tr
  | _ :: tr => awaitWhileStateHeld held tr

/-- Does some `awaitBatchFn` event occur while the `state` lock is NOT held?
Dual scanner to `awaitWhileStateHeld`. -/
def awaitWhileStateFree (held : Bool) : List LockEv → Bool
  | [] => false
  | LockEv.acqState :: tr => awaitWhileStateFree true tr
  | LockEv.relState :: tr => awaitWhileStateFree false tr
  | LockEv.awaitBatchFn :: tr => !held || awaitWhileStateFree held tr
  | _ :: tr => awaitWhileStateFree held tr

/-! ### The queue-based loader of `src/non_cached.rs` -/

/-- `LoadError` as used by src/non_cached.rs (the enum's defining module is a
sibling of that file not present under src/; its three referenced variants —
`UnequalKeyValueSize { key_count, value_count }` at lines 280-284, `BatchFn`
at line 302, `SenderDropped` at line 348 — fix this shape). -/
inductive LoadError (E : Type) where
  | UnequalKeyValueSize (key_count : Nat) (value_count : Nat)
  | BatchFnErr (e : E)
  | SenderDropped
deriving Repr, DecidableEq

/-- A slot of `Loader::queue` (src/non_cached.rs 21):
`Option<(K, Option<Waker>, Option<Result<V, LoadError<E>>>)>`; a `Waker` has
no observable content, so it is modelled as `Option Unit`. -/
abbrev QSlot (K V E : Type) : Type := Option (K × Option Unit × Option (Res V (LoadError E)))

/-- The shared queue of the non-cached loader. -/
abbrev Queue (K V E : Type) : Type := List (QSlot K V E)

/-- `queue.iter().enumerate().filter_map(..)` of `LoadFuture2::poll`
(src/non_cached.rs 260-269): the `(index, key)` pairs of the occupied slots,
indices counted from `n`. -/
def liveFrom {K V E : Type} (n : Nat) : Queue K V E → List (Nat × K)
  | [] => []
  | none :: q => liveFrom (n + 1) q
  | some e :: q => (n, e.1) :: liveFrom (n + 1) q

/-- The `indexes` component of the unzip at src/non_cached.rs 260-269. -/
def liveIndexes {K V E : Type} (q : Queue K V E) : List Nat :=
  (liveFrom 0 q).map Prod.fst

/-- The `keys` component of the unzip at src/non_cached.rs 260-269. -/
def liveKeys {K V E : Type} (q : Queue K V E) : List K :=
  (liveFrom 0 q).map Prod.snd

/-- `if let Some(ref mut item) = queue[index] { item.2 = Some(r) }`
(src/non_cached.rs 285-289 / 300-304): store a result into slot `i` if the
slot is occupied. -/
def setRes {K V E : Type} (q : Queue K V E) (i : Nat) (r : Res V (LoadError E)) :
    Queue K V E :=
  match q[i]? with
  | some (some e) => q.set i (some (e.1, e.2.1, some r))
  | _ => q

/-- `for index in indexes { .. item.2 = Some(Err(err)) .. }`: store the same
error into every listed slot. -/
def setResAll {K V E : Type} (q : Queue K V E) (idxs : List Nat)
    (r : Res V (LoadError E)) : Queue K V E :=
  idxs.foldl (fun q i => setRes q i r) q

/-- `for (index, val) in indexes.into_iter().zip(vals.into_iter()) { .. }`
(src/non_cached.rs 291-295): positional distribution on matching lengths. -/
def setResZip {K V E : Type} (q : Queue K V E) (ivs : List (Nat × V)) : Queue K V E :=
  ivs.foldl (fun q p => setRes q p.1 (.ok p.2)) q

/-- Result distribution of `LoadFuture2::poll` (src/non_cached.rs 277-306):
on `Ok(vals)` with a length mismatch every occupied slot receives
`UnequalKeyValueSize { key_count, value_count }`; on matching lengths values
are zipped positionally; on `Err(err)` every occupied slot receives
`BatchFn(err)`. -/
def distribute {K V E : Type} (q : Queue K V E) (r : Except E (List V)) : Queue K V E :=
  match r with
  | .ok vals =>
    if (liveKeys q).length ≠ vals.length then
      setResAll q (liveIndexes q)
        (.error (.UnequalKeyValueSize (liveKeys q).length vals.length))
    else
      setResZip q ((liveIndexes q).zip vals)
  | .error err => setResAll q (liveIndexes q) (.error (.BatchFnErr err))

/-- Dropping a `LoadFuture2` (src/non_cached.rs 229-233): the struct declares
no `Drop` implementation, so abandoning the handle runs only the generated
drop glue (releasing the handle's own `Arc` references) and performs no
mutation of the shared queue, `visited_count`, or `current_load`. -/
def dropLoadFuture2 {K V E : Type} (q : Queue K V E) : Queue K V E := q

/-- Dropping a pending `cached::Loader::load` future (src/cached.rs 142-194):
`load` is an `async fn` with no drop guard, so cancelling it at a suspension
point runs only the drop glue of its locals (releasing any `MutexGuard`) and
performs no mutation of the shared `State`. -/
def dropCachedLoad {K V E : Type} (s : LoaderState K V E) : LoaderState K V E := s

/-! ### Critical sections of the cached loader as a transition system

Every mutation of the shared `State` of `cached::Loader` happens inside one
of finitely many lock-held critical sections.  An arbitrary interleaving of
concurrent `load` / `load_many` / `prime` / `clear` / `clear_all` calls is
therefore a sequence of these sections.  `SectStep` names them; `runSects`
executes a sequence, collecting every batch dispatched to the batch
function. -/

/-- One lock-held critical section of `cached::Loader`. -/
inductive SectStep (K V : Type) where
  /-- first section of `load` (src/cached.rs 143-165) -/
  | load1 (key : K)
  /-- second section of `load`, after the yield loop (src/cached.rs 174-194) -/
  | load2 (key : K)
  /-- admission loop of `load_many` (src/cached.rs 197-219) -/
  | lm1 (keys : List K)
  /-- post-yield section of `load_many` (src/cached.rs 228-248); `rest` is the
  local vector the admission loop of the same call produced -/
  | lm2 (rest : List K)
  /-- `prime` (src/cached.rs 253-256) -/
  | primeS (key : K) (val : V)
  /-- `clear` (src/cached.rs 258-261) -/
  | clearS (key : K)
  /-- `clear_all` (src/cached.rs 263-266) -/
  | clearAllS

/-- Execute one critical section: next state and batches dispatched by it. -/
def runSect {K V E : Type} [DecidableEq K] (max : Nat)
    (bf : List K → List (K × Res V E)) (s : LoaderState K V E) :
    SectStep K V → LoaderState K V E × List (List K)
  | .load1 key => ((loadStep1 max bf s key).2.1, (loadStep1 max bf s key).2.2)
  | .load2 key => ((loadStep2 bf s key).2.1, (loadStep2 bf s key).2.2)
  | .lm1 keys =>
    let a := lmAdmitAll max bf ⟨s, [], [], [], []⟩ keys
    (a.st, a.disp)
  | .lm2 rest =>
    let r := lmFinish bf ⟨s, [], rest, [], []⟩
    (r.st, r.disp)
  | .primeS key val => (primeOp s key val, [])
  | .clearS key => (clearOp s key, [])
  | .clearAllS => (clearAllOp s, [])

/-- Execute a sequence of critical sections from a state, collecting all
dispatched batches in order. -/
def runSects {K V E : Type} [DecidableEq K] (max : Nat)
    (bf : List K → List (K × Res V E)) (s : LoaderState K V E) :
    List (SectStep K V) → LoaderState K V E × List (List K)
  | [] => (s, [])
  | sec :: secs =>
    let r := runSect max bf s sec
    let rs := runSects max bf r.1 secs
    (rs.1, r.2 ++ rs.2)

/-! ### Invariants and contracts used in the statements -/

/-- The batch-function contract of §6 of the spec / `BatchFn` (src/batch_fn.rs
4-13): the returned map contains an entry for every requested key. -/
def TotalBF {K V E : Type} (bf : List K → List (K × Res V E)) : Prop :=
  ∀ ks k, k ∈ ks → k ∈ (bf ks).map Prod.fst

/-- The resting-state invariant of the cached loader's pending set: no
duplicates, and strictly below `max_batch_size` (any section that fills it to
the threshold drains it before releasing the lock). -/
@[reducible] def PendInv {K V E : Type} (max : Nat) (s : LoaderState K V E) : Prop :=
  s.pending.Nodup ∧ s.pending.length < max

/-- A well-formed batch: duplicate-free and between 1 and `max_batch_size`
keys. -/
@[reducible] def GoodBatch {K : Type} (max : Nat) (b : List K) : Prop :=
  b.Nodup ∧ 1 ≤ b.length ∧ b.length ≤ max

/-- Inductive invariant of the admission loop of `load_many`, after the keys
`processed` have been handled: the pending set is duplicate-free; the ghost
insertion log is duplicate-free and every logged key is still pending or
already completed; dispatched batches are duplicate-free; every `rest` key is
pending or completed; every processed key went to `ret` or `rest`, and `ret`
and `rest` hold only processed keys; `ret` has unique keys. -/
@[reducible] def LMInv {K V E : Type} [DecidableEq K] (processed : List K) (a : LMAcc K V E) : Prop :=
  a.st.pending.Nodup ∧
  a.ins.Nodup ∧
  (∀ k ∈ a.ins, k ∈ a.st.pending ∨ (mapGet a.st.completed k).isSome) ∧
  (∀ b ∈ a.disp, b.Nodup) ∧
  (∀ k ∈ a.rest, k ∈ a.st.pending ∨ (mapGet a.st.completed k).isSome) ∧
  (∀ k ∈ processed, k ∈ a.ret.map Prod.fst ∨ k ∈ a.rest) ∧
  (∀ k ∈ a.ret.map Prod.fst, k ∈ processed) ∧
  (∀ k ∈ a.rest, k ∈ processed) ∧
  (a.ret.map Prod.fst).Nodup

/-! ### Basic lemmas about the map and set models -/

theorem mapGet_mapInsert_self {K A : Type} [DecidableEq K] (m : List (K × A)) (k : K) (a : A) :
    mapGet (mapInsert m k a) k = some a := by
  simp [mapInsert, mapGet]

theorem mapGet_mapRemove {K A : Type} [DecidableEq K] (m : List (K × A)) (k k' : K) :
    mapGet (mapRemove m k) k' = if k' = k then none else mapGet m k' := by
  induction m with
  | nil => simp [mapRemove, mapGet]
  | cons p m ih =>
    obtain ⟨k₀, a₀⟩ := p
    simp only [mapRemove, List.filter_cons] at ih ⊢
    by_cases h0 : k₀ = k <;> by_cases h1 : k₀ = k' <;> by_cases h2 : k' = k <;>
      simp_all [mapGet]

theorem mapGet_mapInsert_ne {K A : Type} [DecidableEq K] (m : List (K × A)) (k k' : K) (a : A)
    (h : k' ≠ k) : mapGet (mapInsert m k a) k' = mapGet m k' := by
  simp [mapInsert, mapGet, Ne.symm h, mapGet_mapRemove, h]

theorem mapGet_insertAll_isSome_of_isSome {K A : Type} [DecidableEq K]
    (ps : List (K × A)) (m : List (K × A)) (k : K) (h : (mapGet m k).isSome) :
    (mapGet (insertAll m ps) k).isSome := by
  induction ps generalizing m with
  | nil => simpa [insertAll] using h
  | cons p ps ih =>
    rw [insertAll, List.foldl_cons]
    refine ih _ ?_
    by_cases hk : k = p.1
    · subst hk
      simp [mapGet_mapInsert_self]
    · rwa [mapGet_mapInsert_ne _ _ _ _ hk]

theorem mapGet_insertAll_isSome_of_mem {K A : Type} [DecidableEq K]
    (ps : List (K × A)) (m : List (K × A)) (k : K) :
    k ∈ ps.map Prod.fst → (mapGet (insertAll m ps) k).isSome := by
  induction ps generalizing m with
  | nil => intro h; simp at h
  | cons p ps ih =>
    intro h
    show (mapGet (insertAll (mapInsert m p.1 p.2) ps) k).isSome
    by_cases hk : k = p.1
    · subst hk
      exact mapGet_insertAll_isSome_of_isSome ps _ _ (by simp [mapGet_mapInsert_self])
    · have hmem : k ∈ ps.map Prod.fst := by
        simp only [List.map_cons, List.mem_cons] at h
        exact h.resolve_left hk
      exact ih _ hmem

theorem mem_hsInsert {K : Type} [DecidableEq K] (s : List K) (k k' : K) :
    k' ∈ hsInsert s k ↔ k' ∈ s ∨ k' = k := by
  unfold hsInsert
  split
  · rename_i h
    constructor
    · exact Or.inl
    · rintro (h1 | rfl)
      · exact h1
      · exact h
  · simp

theorem hsInsert_of_not_mem {K : Type} [DecidableEq K] (s : List K) (k : K) (h : k ∉ s) :
    hsInsert s k = s ++ [k] := by
  simp [hsInsert, h]

theorem hsInsert_nodup {K : Type} [DecidableEq K] (s : List K) (k : K) (h : s.Nodup) :
    (hsInsert s k).Nodup := by
  unfold hsInsert
  split
  · exact h
  · rename_i hm
    simpa [List.nodup_append] using ⟨h, hm⟩

theorem hsInsert_length_le {K : Type} [DecidableEq K] (s : List K) (k : K) :
    (hsInsert s k).length ≤ s.length + 1 := by
  unfold hsInsert
  split
  · omega
  · simp

theorem hsInsert_ne_nil {K : Type} [DecidableEq K] (s : List K) (k : K) :
    hsInsert s k ≠ [] := by
  unfold hsInsert
  split
  · rename_i h
    intro hnil
    rw [hnil] at h
    simp at h
  · simp

/-- Any `load` call whose key is not already completed dispatches, in its
first or second critical section, a batch containing every key pending at
entry as well as its own key (sequential semantics: every dispatch drains
the whole pending set). -/
theorem loadSeq_drains_pending {K V E : Type} [DecidableEq K] (max : Nat)
    (bf : List K → List (K × Res V E)) (s : LoaderState K V E) (key k : K)
    (hc : mapGet s.completed key = none) (hk : k ∈ s.pending ∨ k = key) :
    ∃ b ∈ (loadSeq max bf s key).disp, k ∈ b := by
  by_cases hp : key ∈ s.pending
  · have hne : s.pending ≠ [] := by
      intro h
      rw [h] at hp
      simp at hp
    have hk' : k ∈ s.pending := by
      rcases hk with h | h
      · exact h
      · exact h ▸ hp
    refine ⟨s.pending, ?_, hk'⟩
    simp [loadSeq, loadStep1, hc, hp, loadStep2, hne]
  · have hmem : k ∈ hsInsert s.pending key := by
      rw [mem_hsInsert]
      exact hk
    by_cases hful : max ≤ (hsInsert s.pending key).length
    · refine ⟨hsInsert s.pending key, ?_, hmem⟩
      cases hm2 : mapGet (insertAll s.completed (bf (hsInsert s.pending key))) key <;>
        simp [loadSeq, loadStep1, hc, hp, hful, hm2]
    · refine ⟨hsInsert s.pending key, ?_, hmem⟩
      simp [loadSeq, loadStep1, hc, hp, hful, loadStep2, hsInsert_ne_nil]

/-! ### Claims about `prime`, `clear`, cache hits and eager dispatch -/

/-- Claim C1, counterexample: with key `1` already completed as `Ok 10`,
`prime(1, 2)` overwrites the stored item — afterwards the stored item is
`Ok 2`, not the original `Ok 10`.  (`prime` is src/cached.rs 253-256.) -/
theorem prime_overwrites_cex :
    mapGet (primeOp (⟨[(1, Except.ok 10)], []⟩ : LoaderState Nat Nat Unit) 1 2).completed 1
        = some (Except.ok 2) ∧
    ¬ mapGet (primeOp (⟨[(1, Except.ok 10)], []⟩ : LoaderState Nat Nat Unit) 1 2).completed 1
        = some (Except.ok 10) := by
  constructor
  · rfl
  · intro h
    simp [primeOp, mapInsert, mapRemove, mapGet] at h

/-- Claim C1, amended: `prime(key, val)` unconditionally inserts `Ok val`
into the completed cache, overwriting any existing item for `key`; lookups of
other keys and the pending set are unchanged, and the pending set is never
consulted. -/
theorem prime_always_overwrites {K V E : Type} [DecidableEq K]
    (s : LoaderState K V E) (key : K) (val : V) :
    mapGet (primeOp s key val).completed key = some (.ok val) ∧
    (∀ k, k ≠ key → mapGet (primeOp s key val).completed k = mapGet s.completed k) ∧
    (primeOp s key val).pending = s.pending :=
  ⟨mapGet_mapInsert_self s.completed key (.ok val),
   fun k hk => mapGet_mapInsert_ne s.completed key k (.ok val) hk,
   rfl⟩

/-- Witness for `prime_always_overwrites` at a concrete input (its inner
inequality hypothesis discharged at `k = 2 ≠ 1`). -/
theorem prime_always_overwrites_witness :
    mapGet (primeOp (⟨[(1, Except.ok 10)], [3]⟩ : LoaderState Nat Nat Unit) 1 2).completed 2
        = mapGet (⟨[(1, Except.ok 10)], [3]⟩ : LoaderState Nat Nat Unit).completed 2 ∧
    (primeOp (⟨[(1, Except.ok 10)], [3]⟩ : LoaderState Nat Nat Unit) 1 2).pending = [3] :=
  ⟨(prime_always_overwrites ⟨[(1, Except.ok 10)], [3]⟩ 1 2).2.1 2 (by decide),
   (prime_always_overwrites ⟨[(1, Except.ok 10)], [3]⟩ 1 2).2.2⟩

/-- Claim C8, counterexample: with key `1` in-flight (pending) and not
completed, `clear(1)` (src/cached.rs 258-261) does not evict it — the key is
still pending afterwards; and `clear` returns `()`, not the evicted item. -/
theorem clear_pending_cex :
    1 ∈ (clearOp (⟨[], [1]⟩ : LoaderState Nat Nat Unit) 1).pending := by
  decide

/-- Claim C8, amended: `clear(key)` removes only the completed entry for
`key` and discards it (the function returns `()`); the pending set is
untouched, so an in-flight key stays pending; other completed entries are
unchanged; and after the call, a `load(key)` whose key is not pending
dispatches a fresh batch containing `key`. -/
theorem clear_removes_completed_only {K V E : Type} [DecidableEq K] (max : Nat)
    (bf : List K → List (K × Res V E)) (s : LoaderState K V E) (key : K) :
    mapGet (clearOp s key).completed key = none ∧
    (∀ k, k ≠ key → mapGet (clearOp s key).completed k = mapGet s.completed k) ∧
    (clearOp s key).pending = s.pending ∧
    (key ∉ s.pending → ∃ b ∈ (loadSeq max bf (clearOp s key) key).disp, key ∈ b) := by
  refine ⟨by simp [clearOp, mapGet_mapRemove], fun k hk => ?_, rfl, fun hp => ?_⟩
  · simp [clearOp, mapGet_mapRemove, hk]
  · exact loadSeq_drains_pending max bf (clearOp s key) key key
      (by simp [clearOp, mapGet_mapRemove]) (Or.inr rfl)

/-- Witness for `clear_removes_completed_only` at a concrete input: key `1`
completed, then cleared, then re-loaded — a fresh batch containing `1` is
dispatched. -/
theorem clear_removes_completed_only_witness :
    mapGet (clearOp (⟨[(1, Except.ok 10)], []⟩ : LoaderState Nat Nat Unit) 1).completed 1
        = none ∧
    ∃ b ∈ (loadSeq 2 (fun ks => ks.map fun k => (k, Except.ok k))
        (clearOp (⟨[(1, Except.ok 10)], []⟩ : LoaderState Nat Nat Unit) 1) 1).disp, 1 ∈ b := by
  have h := clear_removes_completed_only 2 (fun ks => ks.map fun k => (k, Except.ok k))
    (⟨[(1, Except.ok 10)], []⟩ : LoaderState Nat Nat Unit) 1
  exact ⟨h.1, h.2.2.2 (by decide)⟩

/-- Claim C10: a `load(key)` with `key` already in the completed cache
returns the stored result, dispatches no batch, and leaves the whole shared
state (completed cache and pending set) unchanged (src/cached.rs 142-146). -/
theorem load_completed_hit_pure {K V E : Type} [DecidableEq K] (max : Nat)
    (bf : List K → List (K × Res V E)) (s : LoaderState K V E) (key : K) (v : Res V E)
    (h : mapGet s.completed key = some v) :
    loadSeq max bf s key = ⟨some v, s, []⟩ := by
  simp [loadSeq, loadStep1, h]

/-- Witness for `load_completed_hit_pure` at a concrete input. -/
theorem load_completed_hit_pure_witness :
    loadSeq 2 (fun ks => ks.map fun k => (k, Except.ok k))
        (⟨[(1, Except.ok 5)], [7]⟩ : LoaderState Nat Nat Unit) 1
      = ⟨some (Except.ok 5), ⟨[(1, Except.ok 5)], [7]⟩, []⟩ :=
  load_completed_hit_pure 2 (fun ks => ks.map fun k => (k, Except.ok k))
    ⟨[(1, Except.ok 5)], [7]⟩ 1 (Except.ok 5) rfl

/-- Claim C2: in the first critical section of `load`, if after inserting the
key the pending set reaches `max_batch_size`, that same call drains the whole
pending set, dispatches it as one batch, and does not defer to the yield
step (src/cached.rs 148-164). -/
theorem load_eager_dispatch {K V E : Type} [DecidableEq K] (max : Nat)
    (bf : List K → List (K × Res V E)) (s : LoaderState K V E) (key : K)
    (hc : mapGet s.completed key = none) (hp : key ∉ s.pending)
    (hful : max ≤ s.pending.length + 1) :
    (loadStep1 max bf s key).2.2 = [s.pending ++ [key]] ∧
    (loadStep1 max bf s key).1 ≠ .deferOut ∧
    (loadStep1 max bf s key).2.1.pending = [] := by
  have happ : hsInsert s.pending key = s.pending ++ [key] :=
    hsInsert_of_not_mem s.pending key hp
  cases hm2 : mapGet (insertAll s.completed (bf (s.pending ++ [key]))) key <;>
    simp [loadStep1, hc, hp, happ, hm2, hful]

/-- Witness for `load_eager_dispatch` at a concrete input (`max_batch_size`
2, one key already pending). -/
theorem load_eager_dispatch_witness :
    (loadStep1 2 (fun ks => ks.map fun k => (k, Except.ok k))
        (⟨[], [5]⟩ : LoaderState Nat Nat Unit) 1).2.2 = [[5] ++ [1]] ∧
    (loadStep1 2 (fun ks => ks.map fun k => (k, Except.ok k))
        (⟨[], [5]⟩ : LoaderState Nat Nat Unit) 1).1 ≠ .deferOut ∧
    (loadStep1 2 (fun ks => ks.map fun k => (k, Except.ok k))
        (⟨[], [5]⟩ : LoaderState Nat Nat Unit) 1).2.1.pending = [] :=
  load_eager_dispatch 2 (fun ks => ks.map fun k => (k, Except.ok k))
    ⟨[], [5]⟩ 1 rfl (by decide) (by decide)

/-! ### Construction-time validation of `max_batch_size` -/

/-- Claim C5, counterexample: the builder path
`Loader::new(f).with_max_batch_size(0)` of the cached loader performs no
validation and produces a loader instance whose `max_batch_size` is 0
(src/cached.rs 128-131), so construction with 0 is not rejected on every
path. -/
theorem max_batch_size_zero_cex :
    (withMaxBatchSize cachedNew 0).max_batch_size = 0 := rfl

/-- Claim C5, amended: the assertion-guarded constructors
(`non_cached::Loader::new`, lib.rs `Loader::new`) abort on a batch function
declaring `max_batch_size() == 0` and succeed on positive sizes, but the
cached loader's builder `with_max_batch_size` accepts any value unchecked
(its `new` defaults to 200), so a cached loader with `max_batch_size == 0`
can be produced. -/
theorem max_batch_size_construction (n : Nat) :
    nonCachedNew 0 = none ∧
    libLoaderNew 0 = none ∧
    (0 < n → nonCachedNew n = some n ∧ libLoaderNew n = some n) ∧
    (∀ c : CachedCfg, (withMaxBatchSize c n).max_batch_size = n) ∧
    cachedNew.max_batch_size = 200 := by
  refine ⟨rfl, rfl, fun h => ?_, fun c => rfl, rfl⟩
  simp [nonCachedNew, libLoaderNew, h]

/-- Witness for `max_batch_size_construction` at `n = 3`. -/
theorem max_batch_size_construction_witness :
    nonCachedNew 3 = some 3 ∧ libLoaderNew 3 = some 3 :=
  (max_batch_size_construction 3).2.2.1 (by decide)

/-! ### Lock discipline of `cached::Loader::load` -/

theorem awaitWhileStateHeld_append_yields (held : Bool) (n : Nat) (tr : List LockEv) :
    awaitWhileStateHeld held (List.replicate n LockEv.yieldNow ++ tr) =
      awaitWhileStateHeld held tr := by
  induction n with
  | zero => rfl
  | succ n ih => simpa [List.replicate_succ, awaitWhileStateHeld] using ih

theorem awaitWhileStateFree_append_yields (held : Bool) (n : Nat) (tr : List LockEv) :
    awaitWhileStateFree held (List.replicate n LockEv.yieldNow ++ tr) =
      awaitWhileStateFree held tr := by
  induction n with
  | zero => rfl
  | succ n ih => simpa [List.replicate_succ, awaitWhileStateFree] using ih

/-- Claim C4, counterexample: in both dispatch paths of
`cached::Loader::load` the batch function is awaited while the `state` mutex
is held — shown here on the eager path (`hit1 = false`, `pend = false`,
`eager = true`) and on the deferred path (`pend = true`, second section
non-empty): the await occurs inside the lock-held region, so the lock is not
released before awaiting the Batch Function. -/
theorem lock_held_across_await_cex :
    awaitWhileStateHeld false (loadLockTrace false false true false false 10) = true ∧
    awaitWhileStateHeld false (loadLockTrace false true false false false 0) = true := by
  constructor <;> rfl

/-- Claim C4, amended: in `cached::Loader::load`, every await of the batch
function occurs while the `state` mutex is held (the lock is released only
around the yield loop, and on the eager and deferred dispatch paths it is
held across the await); no await ever occurs with the `state` mutex
released. -/
theorem load_awaits_batchfn_under_state_lock (h1 p e h2 e2 : Bool) (yc : Nat)
    (hd : LockEv.awaitBatchFn ∈ loadLockTrace h1 p e h2 e2 yc) :
    awaitWhileStateHeld false (loadLockTrace h1 p e h2 e2 yc) = true ∧
    awaitWhileStateFree false (loadLockTrace h1 p e h2 e2 yc) = false := by
  cases h1 <;> cases p <;> cases e <;> cases h2 <;> cases e2 <;>
    simp_all [loadLockTrace, awaitWhileStateHeld, awaitWhileStateFree,
      awaitWhileStateHeld_append_yields, awaitWhileStateFree_append_yields,
      List.mem_append, List.mem_replicate]

/-- Witness for `load_awaits_batchfn_under_state_lock` on the eager path. -/
theorem load_awaits_batchfn_under_state_lock_witness :
    awaitWhileStateHeld false (loadLockTrace false false true false false 10) = true ∧
    awaitWhileStateFree false (loadLockTrace false false true false false 10) = false :=
  load_awaits_batchfn_under_state_lock false false true false false 10 (by decide)

/-! ### Abandonment of a pending handle -/

/-- Claim C7, counterexample: abandoning a handle before completion removes
nothing.  For the non-cached loader, a queue holding the single pending entry
of the dropped `LoadFuture2` still holds it after the drop (the slot is not
vacated); for the cached loader, a key admitted to `pending` by a dropped
`load` is still pending after the drop. -/
theorem abandoned_handle_cleanup_cex :
    (dropLoadFuture2
        [some ((1 : Nat), none, (none : Option (Res Nat (LoadError Unit))))]).any
      (fun s => s.isSome) = true ∧
    1 ∈ (dropCachedLoad (⟨[], [1]⟩ : LoaderState Nat Nat Unit)).pending := by
  exact ⟨rfl, by decide⟩

/-- Claim C7, amended: abandonment performs no bookkeeping cleanup at all.
`LoadFuture2` declares no `Drop` impl, so dropping it leaves the shared queue
(and its occupied slot) unchanged; dropping a pending cached `load` leaves
the shared state unchanged, its key remaining in `pending` — the key is
removed only later, when some other call's dispatch drains the whole pending
set into a batch. -/
theorem abandoned_handle_no_cleanup {K V E : Type} [DecidableEq K] (max : Nat)
    (bf : List K → List (K × Res V E)) (q : Queue K V E) (s : LoaderState K V E)
    (k key : K) (hk : k ∈ s.pending) (hc : mapGet s.completed key = none) :
    dropLoadFuture2 q = q ∧
    dropCachedLoad s = s ∧
    ∃ b ∈ (loadSeq max bf (dropCachedLoad s) key).disp, k ∈ b :=
  ⟨rfl, rfl, loadSeq_drains_pending max bf s key k hc (Or.inl hk)⟩

/-- Witness for `abandoned_handle_no_cleanup`: key 1 was abandoned while
pending; a later `load 2` dispatches a batch containing 1. -/
theorem abandoned_handle_no_cleanup_witness :
    ∃ b ∈ (loadSeq 2 (fun ks => ks.map fun k => (k, Except.ok k))
        (dropCachedLoad (⟨[], [1]⟩ : LoaderState Nat Nat Unit)) 2).disp, 1 ∈ b :=
  (abandoned_handle_no_cleanup 2 (fun ks => ks.map fun k => (k, Except.ok k))
    [] ⟨[], [1]⟩ 1 2 (by decide) rfl).2.2

/-! ### Result distribution in `LoadFuture2::poll` -/

theorem liveFrom_succ {K V E : Type} (n : Nat) (q : Queue K V E) :
    liveFrom (n + 1) q = (liveFrom n q).map (fun p => (p.1 + 1, p.2)) := by
  induction q generalizing n with
  | nil => rfl
  | cons x q ih => cases x <;> simp [liveFrom, ih]

theorem setRes_cons_succ {K V E : Type} (x : QSlot K V E) (q : Queue K V E) (i : Nat)
    (r : Res V (LoadError E)) : setRes (x :: q) (i + 1) r = x :: setRes q i r := by
  unfold setRes
  cases h : q[i]? with
  | none => simp [h]
  | some s =>
    cases s with
    | none => simp [h]
    | some e => simp [h]

theorem setResAll_cons {K V E : Type} (q : Queue K V E) (i : Nat) (idxs : List Nat)
    (r : Res V (LoadError E)) :
    setResAll q (i :: idxs) r = setResAll (setRes q i r) idxs r := rfl

theorem setResAll_map_succ {K V E : Type} (x : QSlot K V E) (q : Queue K V E)
    (idxs : List Nat) (r : Res V (LoadError E)) :
    setResAll (x :: q) (idxs.map (fun i => i + 1)) r = x :: setResAll q idxs r := by
  induction idxs generalizing q x with
  | nil => rfl
  | cons i idxs ih =>
    simp only [List.map_cons, setResAll_cons, setRes_cons_succ]
    exact ih _ _

theorem liveIndexes_cons_none {K V E : Type} (q : Queue K V E) :
    liveIndexes ((none : QSlot K V E) :: q) = (liveIndexes q).map (fun i => i + 1) := by
  simp [liveIndexes, liveFrom, liveFrom_succ, List.map_map, Function.comp]

theorem liveIndexes_cons_some {K V E : Type} (e : K × Option Unit × Option (Res V (LoadError E)))
    (q : Queue K V E) :
    liveIndexes (some e :: q) = 0 :: (liveIndexes q).map (fun i => i + 1) := by
  simp [liveIndexes, liveFrom, liveFrom_succ, List.map_map, Function.comp]

/-- Storing the same result into every live index updates exactly the
occupied slots, pointwise. -/
theorem setResAll_liveIndexes {K V E : Type} (q : Queue K V E) (r : Res V (LoadError E)) :
    setResAll q (liveIndexes q) r
      = q.map (Option.map (fun e => (e.1, e.2.1, some r))) := by
  induction q with
  | nil => rfl
  | cons x q ih =>
    cases x with
    | none =>
      rw [liveIndexes_cons_none, setResAll_map_succ, ih]
      rfl
    | some e =>
      rw [liveIndexes_cons_some, setResAll_cons]
      have h2 : setRes (some e :: q) 0 r = some (e.1, e.2.1, some r) :: q := by
        simp [setRes]
      rw [h2, setResAll_map_succ, ih]
      rfl

/-- Claim C6: when the positional batch result's value list length differs
from the requested key list length, every still-live member of the batch has
its slot set to `Err(UnequalKeyValueSize { key_count, value_count })` with
the actual counts — no member receives a value (src/non_cached.rs 277-296). -/
theorem size_mismatch_broadcast {K V E : Type} (q : Queue K V E) (vals : List V) (i : Nat)
    (e : K × Option Unit × Option (Res V (LoadError E)))
    (hlen : (liveKeys q).length ≠ vals.length)
    (hi : q[i]? = some (some e)) :
    (distribute q (.ok vals))[i]?
      = some (some (e.1, e.2.1,
          some (.error (.UnequalKeyValueSize (liveKeys q).length vals.length)))) := by
  simp only [distribute, if_pos hlen]
  rw [setResAll_liveIndexes]
  simp [hi]

/-- Witness for `size_mismatch_broadcast`: a three-slot queue with two live
members (keys 1 and 2, slot 1 abandoned) and a single returned value; the
live member at index 2 receives `UnequalKeyValueSize(2, 1)`. -/
theorem size_mismatch_broadcast_witness :
    (distribute
        ([some (1, none, none), none, some (2, none, none)] : Queue Nat Nat Unit)
        (.ok [5]))[2]?
      = some (some (2, none, some (.error (.UnequalKeyValueSize 2 1)))) :=
  size_mismatch_broadcast
    ([some (1, none, none), none, some (2, none, none)] : Queue Nat Nat Unit)
    [5] 2 (2, none, none) (by decide) rfl

/-! ### Well-formedness of every dispatched batch -/

theorem loadStep1_pendInv {K V E : Type} [DecidableEq K] (max : Nat)
    (bf : List K → List (K × Res V E)) (s : LoaderState K V E) (key : K)
    (hmax : 1 ≤ max) (hinv : PendInv max s) :
    PendInv max (loadStep1 max bf s key).2.1 ∧
    ∀ b ∈ (loadStep1 max bf s key).2.2, GoodBatch max b := by
  obtain ⟨hnd, hlt⟩ := hinv
  cases hm : mapGet s.completed key with
  | some v =>
    have e : loadStep1 max bf s key = (.ret v, s, []) := by
      simp [loadStep1, hm]
    rw [e]
    exact ⟨⟨hnd, hlt⟩, by simp⟩
  | none =>
    by_cases hp : key ∈ s.pending
    · have e : loadStep1 max bf s key = (.deferOut, s, []) := by
        simp [loadStep1, hm, hp]
      rw [e]
      exact ⟨⟨hnd, hlt⟩, by simp⟩
    · have hle := hsInsert_length_le s.pending key
      by_cases hful : max ≤ (hsInsert s.pending key).length
      · have h1 := hsInsert_nodup s.pending key hnd
        have h2 := List.length_pos.mpr (hsInsert_ne_nil s.pending key)
        have e : (loadStep1 max bf s key).2
            = (⟨insertAll s.completed (bf (hsInsert s.pending key)), []⟩,
               [hsInsert s.pending key]) := by
          cases hm2 : mapGet (insertAll s.completed (bf (hsInsert s.pending key))) key <;>
            simp [loadStep1, hm, hp, hful, hm2]
        rw [show (loadStep1 max bf s key).2.1 = (loadStep1 max bf s key).2.1 from rfl, e]
        refine ⟨⟨List.nodup_nil, by show 0 < max; omega⟩, ?_⟩
        intro b hb
        rw [List.mem_singleton.mp hb]
        exact ⟨h1, h2, by omega⟩
      · have h1 := hsInsert_nodup s.pending key hnd
        have e : loadStep1 max bf s key
            = (.deferOut, ⟨s.completed, hsInsert s.pending key⟩, []) := by
          simp [loadStep1, hm, hp, hful]
        rw [e]
        exact ⟨⟨h1, by show (hsInsert s.pending key).length < max; omega⟩, by simp⟩

theorem loadStep2_pendInv {K V E : Type} [DecidableEq K] (max : Nat)
    (bf : List K → List (K × Res V E)) (s : LoaderState K V E) (key : K)
    (hmax : 1 ≤ max) (hinv : PendInv max s) :
    PendInv max (loadStep2 bf s key).2.1 ∧
    ∀ b ∈ (loadStep2 bf s key).2.2, GoodBatch max b := by
  obtain ⟨hnd, hlt⟩ := hinv
  cases hm : mapGet s.completed key with
  | some v =>
    have e : loadStep2 bf s key = (some v, s, []) := by
      simp [loadStep2, hm]
    rw [e]
    exact ⟨⟨hnd, hlt⟩, by simp⟩
  | none =>
    by_cases hp : s.pending = []
    · have e : loadStep2 bf s key = (mapGet s.completed key, s, []) := by
        simp [loadStep2, hm, hp]
      rw [e]
      exact ⟨⟨hnd, hlt⟩, by simp⟩
    · have h2 := List.length_pos.mpr hp
      have e : loadStep2 bf s key
          = (mapGet (insertAll s.completed (bf s.pending)) key,
             ⟨insertAll s.completed (bf s.pending), []⟩, [s.pending]) := by
        simp [loadStep2, hm, hp]
      rw [e]
      refine ⟨⟨List.nodup_nil, by show 0 < max; omega⟩, ?_⟩
      intro b hb
      rw [List.mem_singleton.mp hb]
      exact ⟨hnd, h2, by omega⟩

theorem lmAdmit_pendInv {K V E : Type} [DecidableEq K] (max : Nat)
    (bf : List K → List (K × Res V E)) (a : LMAcc K V E) (key : K)
    (hmax : 1 ≤ max) (hinv : PendInv max a.st) (hd : ∀ b ∈ a.disp, GoodBatch max b) :
    PendInv max (lmAdmit max bf a key).st ∧
    ∀ b ∈ (lmAdmit max bf a key).disp, GoodBatch max b := by
  obtain ⟨hnd, hlt⟩ := hinv
  cases hm : mapGet a.st.completed key with
  | some v =>
    have e : lmAdmit max bf a key = { a with ret := mapInsert a.ret key v } := by
      simp [lmAdmit, hm]
    rw [e]
    exact ⟨⟨hnd, hlt⟩, hd⟩
  | none =>
    by_cases hp : key ∈ a.st.pending
    · have e : lmAdmit max bf a key = { a with rest := a.rest ++ [key] } := by
        simp [lmAdmit, hm, hp]
      rw [e]
      exact ⟨⟨hnd, hlt⟩, hd⟩
    · have hle := hsInsert_length_le a.st.pending key
      by_cases hful : max ≤ (hsInsert a.st.pending key).length
      · have h1 := hsInsert_nodup a.st.pending key hnd
        have h2 := List.length_pos.mpr (hsInsert_ne_nil a.st.pending key)
        have e : lmAdmit max bf a key =
            { a with
              st := ⟨insertAll a.st.completed (bf (hsInsert a.st.pending key)), []⟩
              rest := a.rest ++ [key]
              disp := a.disp ++ [hsInsert a.st.pending key]
              ins := a.ins ++ [key] } := by
          simp [lmAdmit, hm, hp, hful]
        rw [e]
        refine ⟨⟨List.nodup_nil, by show 0 < max; omega⟩, ?_⟩
        intro b hb
        rcases List.mem_append.mp hb with h | h
        · exact hd b h
        · rw [List.mem_singleton.mp h]
          exact ⟨h1, h2, by omega⟩
      · have h1 := hsInsert_nodup a.st.pending key hnd
        have e : lmAdmit max bf a key =
            { a with
              st := ⟨a.st.completed, hsInsert a.st.pending key⟩
              rest := a.rest ++ [key]
              ins := a.ins ++ [key] } := by
          simp [lmAdmit, hm, hp, hful]
        rw [e]
        exact ⟨⟨h1, by show (hsInsert a.st.pending key).length < max; omega⟩, hd⟩

theorem lmAdmitAll_pendInv {K V E : Type} [DecidableEq K] (max : Nat)
    (bf : List K → List (K × Res V E)) (keys : List K) (a : LMAcc K V E)
    (hmax : 1 ≤ max) (hinv : PendInv max a.st) (hd : ∀ b ∈ a.disp, GoodBatch max b) :
    PendInv max (lmAdmitAll max bf a keys).st ∧
    ∀ b ∈ (lmAdmitAll max bf a keys).disp, GoodBatch max b := by
  induction keys generalizing a with
  | nil => exact ⟨hinv, hd⟩
  | cons key keys ih =>
    have h := lmAdmit_pendInv max bf a key hmax hinv hd
    exact ih (lmAdmit max bf a key) h.1 h.2

theorem lmFinish_pendInv {K V E : Type} [DecidableEq K]
    (bf : List K → List (K × Res V E)) (a : LMAcc K V E) (max : Nat)
    (hmax : 1 ≤ max) (hinv : PendInv max a.st) (hd : ∀ b ∈ a.disp, GoodBatch max b) :
    PendInv max (lmFinish bf a).st ∧
    ∀ b ∈ (lmFinish bf a).disp, GoodBatch max b := by
  obtain ⟨hnd, hlt⟩ := hinv
  by_cases hr : a.rest = []
  · have e : lmFinish bf a = ⟨some a.ret, a.st, a.disp, a.ins⟩ := by
      simp [lmFinish, hr]
    rw [e]
    exact ⟨⟨hnd, hlt⟩, hd⟩
  · by_cases hp : a.st.pending = []
    · have e : lmFinish bf a = ⟨lmFill a.st.completed a.ret a.rest, a.st, a.disp, a.ins⟩ := by
        simp [lmFinish, hr, hp]
      rw [e]
      exact ⟨⟨hnd, hlt⟩, hd⟩
    · have h2 := List.length_pos.mpr hp
      have e : lmFinish bf a =
          ⟨lmFill (insertAll a.st.completed (bf a.st.pending)) a.ret a.rest,
           ⟨insertAll a.st.completed (bf a.st.pending), []⟩,
           a.disp ++ [a.st.pending], a.ins⟩ := by
        simp [lmFinish, hr, hp]
      rw [e]
      refine ⟨⟨List.nodup_nil, by show 0 < max; omega⟩, ?_⟩
      intro b hb
      rcases List.mem_append.mp hb with h | h
      · exact hd b h
      · rw [List.mem_singleton.mp h]
        exact ⟨hnd, h2, by omega⟩

theorem runSect_pendInv {K V E : Type} [DecidableEq K] (max : Nat)
    (bf : List K → List (K × Res V E)) (s : LoaderState K V E) (sec : SectStep K V)
    (hmax : 1 ≤ max) (hinv : PendInv max s) :
    PendInv max (runSect max bf s sec).1 ∧
    ∀ b ∈ (runSect max bf s sec).2, GoodBatch max b := by
  cases sec with
  | load1 key => exact loadStep1_pendInv max bf s key hmax hinv
  | load2 key => exact loadStep2_pendInv max bf s key hmax hinv
  | lm1 keys => exact lmAdmitAll_pendInv max bf keys ⟨s, [], [], [], []⟩ hmax hinv (by simp)
  | lm2 rest => exact lmFinish_pendInv bf ⟨s, [], rest, [], []⟩ max hmax hinv (by simp)
  | primeS key val => exact ⟨hinv, by simp [runSect]⟩
  | clearS key => exact ⟨hinv, by simp [runSect]⟩
  | clearAllS => exact ⟨hinv, by simp [runSect]⟩

theorem runSects_cons {K V E : Type} [DecidableEq K] (max : Nat)
    (bf : List K → List (K × Res V E)) (s : LoaderState K V E) (sec : SectStep K V)
    (secs : List (SectStep K V)) :
    runSects max bf s (sec :: secs)
      = ((runSects max bf (runSect max bf s sec).1 secs).1,
         (runSect max bf s sec).2 ++ (runSects max bf (runSect max bf s sec).1 secs).2) :=
  rfl

theorem runSects_pendInv {K V E : Type} [DecidableEq K] (max : Nat)
    (bf : List K → List (K × Res V E)) (s : LoaderState K V E)
    (secs : List (SectStep K V)) (hmax : 1 ≤ max) (hinv : PendInv max s) :
    PendInv max (runSects max bf s secs).1 ∧
    ∀ b ∈ (runSects max bf s secs).2, GoodBatch max b := by
  induction secs generalizing s with
  | nil => exact ⟨hinv, by simp [runSects]⟩
  | cons sec secs ih =>
    have h1 := runSect_pendInv max bf s sec hmax hinv
    have h2 := ih (runSect max bf s sec).1 h1.1
    rw [runSects_cons]
    refine ⟨h2.1, ?_⟩
    intro b hb
    rcases List.mem_append.mp hb with h | h
    · exact h1.2 b h
    · exact h2.2 b h

/-- Claim C3: over any interleaving of the lock-held critical sections of
`load`, `load_many`, `prime`, `clear` and `clear_all` from the initial
state, every key list dispatched to the batch function is duplicate-free and
its length is between 1 and `max_batch_size` (for a valid configuration
`max_batch_size ≥ 1`). -/
theorem dispatched_batches_wellformed {K V E : Type} [DecidableEq K] (max : Nat)
    (bf : List K → List (K × Res V E)) (secs : List (SectStep K V)) (hmax : 1 ≤ max) :
    ∀ b ∈ (runSects max bf (initState K V E) secs).2,
      b.Nodup ∧ 1 ≤ b.length ∧ b.length ≤ max :=
  fun b hb =>
    (runSects_pendInv max bf (initState K V E) secs hmax ⟨List.nodup_nil, hmax⟩).2 b hb

/-- Witness for `dispatched_batches_wellformed`: with `max_batch_size = 2`,
two `load` admissions trigger one eager dispatch of the batch `[1, 2]`,
which is duplicate-free and within bounds. -/
theorem dispatched_batches_wellformed_witness :
    ([1, 2] : List Nat).Nodup ∧ 1 ≤ ([1, 2] : List Nat).length ∧
      ([1, 2] : List Nat).length ≤ 2 :=
  dispatched_batches_wellformed 2
    ((fun ks => ks.map fun k => (k, Except.ok k)) : List Nat → List (Nat × Res Nat Unit))
    ([SectStep.load1 1, SectStep.load1 2] : List (SectStep Nat Nat))
    (by decide) [1, 2] (by decide)

/-! ### Coalescing of duplicate keys in `load_many` -/

theorem keys_mapRemove {K A : Type} [DecidableEq K] (m : List (K × A)) (k : K) :
    (mapRemove m k).map Prod.fst = (m.map Prod.fst).filter (fun x => decide (x ≠ k)) := by
  induction m with
  | nil => rfl
  | cons p m ih =>
    by_cases h : p.1 = k <;> simp [mapRemove, List.filter_cons, h] at ih ⊢ <;> exact ih

theorem mem_keys_mapInsert {K A : Type} [DecidableEq K] (m : List (K × A)) (k : K) (a : A)
    (k' : K) :
    k' ∈ (mapInsert m k a).map Prod.fst ↔ k' = k ∨ k' ∈ m.map Prod.fst := by
  by_cases h : k' = k <;>
    simp [mapInsert, keys_mapRemove, List.mem_filter, h]

theorem keys_mapInsert_nodup {K A : Type} [DecidableEq K] (m : List (K × A)) (k : K) (a : A)
    (h : (m.map Prod.fst).Nodup) : ((mapInsert m k a).map Prod.fst).Nodup := by
  rw [mapInsert]
  simp only [List.map_cons, List.nodup_cons, keys_mapRemove]
  constructor
  · intro hmem
    simp [List.mem_filter] at hmem
  · exact h.filter _

/-- If every `rest` key has a completed result, the pickup loop succeeds and
produces a map whose keys are the old `ret` keys plus the `rest` keys, with
key uniqueness preserved. -/
theorem lmFill_spec {K V E : Type} [DecidableEq K] (completed : List (K × Res V E))
    (ret : List (K × Res V E)) (rest : List K)
    (h : ∀ k ∈ rest, (mapGet completed k).isSome) :
    ∃ ret2, lmFill completed ret rest = some ret2 ∧
      (∀ k, k ∈ ret2.map Prod.fst ↔ k ∈ ret.map Prod.fst ∨ k ∈ rest) ∧
      ((ret.map Prod.fst).Nodup → (ret2.map Prod.fst).Nodup) := by
  induction rest generalizing ret with
  | nil => exact ⟨ret, rfl, by simp, id⟩
  | cons k ks ih =>
    have hk := h k (by simp)
    cases hm : mapGet completed k with
    | none =>
      rw [hm] at hk
      simp at hk
    | some v =>
      obtain ⟨ret2, h1, h2, h3⟩ := ih (mapInsert ret k v) (fun k' hk' => h k' (by simp [hk']))
      refine ⟨ret2, ?_, ?_, ?_⟩
      · simpa [lmFill, hm] using h1
      · intro k'
        rw [h2 k', mem_keys_mapInsert]
        constructor
        · rintro ((h4 | h4) | h4)
          · exact Or.inr (by simp [h4])
          · exact Or.inl h4
          · exact Or.inr (by simp [h4])
        · rintro (h4 | h4)
          · exact Or.inl (Or.inr h4)
          · rcases List.mem_cons.mp h4 with h5 | h5
            · exact Or.inl (Or.inl h5)
            · exact Or.inr h5
      · intro hnd
        exact h3 (keys_mapInsert_nodup _ _ _ hnd)

/-- One admission-loop iteration preserves the `load_many` invariant,
extending the processed prefix by its key, when the batch function honours
the totality contract. -/
theorem lmAdmit_lminv {K V E : Type} [DecidableEq K] (max : Nat)
    (bf : List K → List (K × Res V E)) (htot : TotalBF bf)
    (a : LMAcc K V E) (key : K) (processed : List K)
    (hinv : LMInv processed a) :
    LMInv (processed ++ [key]) (lmAdmit max bf a key) := by
  obtain ⟨i1, i2, i3, i4, i5, i6, i7, i8, i9⟩ := hinv
  cases hm : mapGet a.st.completed key with
  | some v =>
    have e : lmAdmit max bf a key = { a with ret := mapInsert a.ret key v } := by
      simp [lmAdmit, hm]
    rw [e]
    refine ⟨i1, i2, i3, i4, i5, ?_, ?_, ?_, keys_mapInsert_nodup _ _ _ i9⟩
    · intro k hk
      rcases List.mem_append.mp hk with h | h
      · rcases i6 k h with h1 | h1
        · exact Or.inl ((mem_keys_mapInsert _ _ _ _).mpr (Or.inr h1))
        · exact Or.inr h1
      · rw [List.mem_singleton.mp h]
        exact Or.inl ((mem_keys_mapInsert _ _ _ _).mpr (Or.inl rfl))
    · intro k hk
      rcases (mem_keys_mapInsert a.ret key v k).mp hk with h | h
      · rw [h]
        exact List.mem_append.mpr (Or.inr (by simp))
      · exact List.mem_append.mpr (Or.inl (i7 k h))
    · intro k hk
      exact List.mem_append.mpr (Or.inl (i8 k hk))
  | none =>
    by_cases hp : key ∈ a.st.pending
    · have e : lmAdmit max bf a key = { a with rest := a.rest ++ [key] } := by
        simp [lmAdmit, hm, hp]
      rw [e]
      refine ⟨i1, i2, i3, i4, ?_, ?_, ?_, ?_, i9⟩
      · intro k hk
        rcases List.mem_append.mp hk with h | h
        · exact i5 k h
        · rw [List.mem_singleton.mp h]
          exact Or.inl hp
      · intro k hk
        rcases List.mem_append.mp hk with h | h
        · rcases i6 k h with h1 | h1
          · exact Or.inl h1
          · exact Or.inr (List.mem_append.mpr (Or.inl h1))
        · rw [List.mem_singleton.mp h]
          exact Or.inr (List.mem_append.mpr (Or.inr (by simp)))
      · intro k hk
        exact List.mem_append.mpr (Or.inl (i7 k hk))
      · intro k hk
        rcases List.mem_append.mp hk with h | h
        · exact List.mem_append.mpr (Or.inl (i8 k h))
        · exact List.mem_append.mpr (Or.inr h)
    · have hkey_ins : key ∉ a.ins := by
        intro hk
        rcases i3 key hk with h | h
        · exact hp h
        · rw [hm] at h
          simp at h
      have hins2 : (a.ins ++ [key]).Nodup := by
        simpa [List.nodup_append] using ⟨i2, hkey_ins⟩
      by_cases hful : max ≤ (hsInsert a.st.pending key).length
      · have e : lmAdmit max bf a key =
            { a with
              st := ⟨insertAll a.st.completed (bf (hsInsert a.st.pending key)), []⟩
              rest := a.rest ++ [key]
              disp := a.disp ++ [hsInsert a.st.pending key]
              ins := a.ins ++ [key] } := by
          simp [lmAdmit, hm, hp, hful]
        rw [e]
        have hsome : ∀ k, k ∈ a.st.pending ∨ (mapGet a.st.completed k).isSome →
            (mapGet (insertAll a.st.completed (bf (hsInsert a.st.pending key))) k).isSome := by
          intro k hk
          rcases hk with h | h
          · exact mapGet_insertAll_isSome_of_mem _ _ _
              (htot _ k ((mem_hsInsert _ _ _).mpr (Or.inl h)))
          · exact mapGet_insertAll_isSome_of_isSome _ _ _ h
        have hsomek :
            (mapGet (insertAll a.st.completed (bf (hsInsert a.st.pending key))) key).isSome :=
          mapGet_insertAll_isSome_of_mem _ _ _
            (htot _ key ((mem_hsInsert _ _ _).mpr (Or.inr rfl)))
        refine ⟨List.nodup_nil, hins2, ?_, ?_, ?_, ?_, ?_, ?_, i9⟩
        · intro k hk
          rcases List.mem_append.mp hk with h | h
          · exact Or.inr (hsome k (i3 k h))
          · rw [List.mem_singleton.mp h]
            exact Or.inr hsomek
        · intro b hb
          rcases List.mem_append.mp hb with h | h
          · exact i4 b h
          · rw [List.mem_singleton.mp h]
            exact hsInsert_nodup _ _ i1
        · intro k hk
          rcases List.mem_append.mp hk with h | h
          · exact Or.inr (hsome k (i5 k h))
          · rw [List.mem_singleton.mp h]
            exact Or.inr hsomek
        · intro k hk
          rcases List.mem_append.mp hk with h | h
          · rcases i6 k h with h1 | h1
            · exact Or.inl h1
            · exact Or.inr (List.mem_append.mpr (Or.inl h1))
          · rw [List.mem_singleton.mp h]
            exact Or.inr (List.mem_append.mpr (Or.inr (by simp)))
        · intro k hk
          exact List.mem_append.mpr (Or.inl (i7 k hk))
        · intro k hk
          rcases List.mem_append.mp hk with h | h
          · exact List.mem_append.mpr (Or.inl (i8 k h))
          · exact List.mem_append.mpr (Or.inr h)
      · have e : lmAdmit max bf a key =
            { a with
              st := ⟨a.st.completed, hsInsert a.st.pending key⟩
              rest := a.rest ++ [key]
              ins := a.ins ++ [key] } := by
          simp [lmAdmit, hm, hp, hful]
        rw [e]
        refine ⟨hsInsert_nodup _ _ i1, hins2, ?_, i4, ?_, ?_, ?_, ?_, i9⟩
        · intro k hk
          rcases List.mem_append.mp hk with h | h
          · rcases i3 k h with h1 | h1
            · exact Or.inl ((mem_hsInsert _ _ _).mpr (Or.inl h1))
            · exact Or.inr h1
          · rw [List.mem_singleton.mp h]
            exact Or.inl ((mem_hsInsert _ _ _).mpr (Or.inr rfl))
        · intro k hk
          rcases List.mem_append.mp hk with h | h
          · rcases i5 k h with h1 | h1
            · exact Or.inl ((mem_hsInsert _ _ _).mpr (Or.inl h1))
            · exact Or.inr h1
          · rw [List.mem_singleton.mp h]
            exact Or.inl ((mem_hsInsert _ _ _).mpr (Or.inr rfl))
        · intro k hk
          rcases List.mem_append.mp hk with h | h
          · rcases i6 k h with h1 | h1
            · exact Or.inl h1
            · exact Or.inr (List.mem_append.mpr (Or.inl h1))
          · rw [List.mem_singleton.mp h]
            exact Or.inr (List.mem_append.mpr (Or.inr (by simp)))
        · intro k hk
          exact List.mem_append.mpr (Or.inl (i7 k hk))
        · intro k hk
          rcases List.mem_append.mp hk with h | h
          · exact List.mem_append.mpr (Or.inl (i8 k h))
          · exact List.mem_append.mpr (Or.inr h)

/-- The whole admission loop preserves the `load_many` invariant. -/
theorem lmAdmitAll_lminv {K V E : Type} [DecidableEq K] (max : Nat)
    (bf : List K → List (K × Res V E)) (htot : TotalBF bf)
    (keys : List K) (a : LMAcc K V E) (processed : List K)
    (hinv : LMInv processed a) :
    LMInv (processed ++ keys) (lmAdmitAll max bf a keys) := by
  induction keys generalizing a processed with
  | nil => simpa using hinv
  | cons key keys ih =>
    have h := lmAdmit_lminv max bf htot a key processed hinv
    have h2 := ih (lmAdmit max bf a key) (processed ++ [key]) h
    simpa [List.append_assoc] using h2

/-- Claim C9: under the batch-function totality contract, a `load_many` call
coalesces duplicate input keys: every key is inserted into the pending set at
most once (the ghost insertion log has no duplicates), every dispatched batch
is duplicate-free, and the returned mapping has exactly one entry per
distinct input key. -/
theorem load_many_coalesces {K V E : Type} [DecidableEq K] (max : Nat)
    (bf : List K → List (K × Res V E)) (s : LoaderState K V E) (keys : List K)
    (htot : TotalBF bf) (hpend : s.pending.Nodup) :
    (loadManySeq max bf s keys).ins.Nodup ∧
    (∀ b ∈ (loadManySeq max bf s keys).disp, b.Nodup) ∧
    ∃ ret, (loadManySeq max bf s keys).out = some ret ∧
      (ret.map Prod.fst).Nodup ∧
      ∀ k, k ∈ ret.map Prod.fst ↔ k ∈ keys := by
  have h0 : LMInv [] (⟨s, [], [], [], []⟩ : LMAcc K V E) := by
    refine ⟨hpend, List.nodup_nil, ?_, ?_, ?_, ?_, ?_, ?_, List.nodup_nil⟩ <;> simp
  have hinv := lmAdmitAll_lminv max bf htot keys ⟨s, [], [], [], []⟩ [] h0
  simp only [List.nil_append] at hinv
  obtain ⟨i1, i2, i3, i4, i5, i6, i7, i8, i9⟩ := hinv
  by_cases hr : (lmAdmitAll max bf ⟨s, [], [], [], []⟩ keys).rest = []
  · have e : loadManySeq max bf s keys =
        ⟨some (lmAdmitAll max bf ⟨s, [], [], [], []⟩ keys).ret,
         (lmAdmitAll max bf ⟨s, [], [], [], []⟩ keys).st,
         (lmAdmitAll max bf ⟨s, [], [], [], []⟩ keys).disp,
         (lmAdmitAll max bf ⟨s, [], [], [], []⟩ keys).ins⟩ := by
      simp [loadManySeq, lmFinish, hr]
    rw [e]
    refine ⟨i2, i4, _, rfl, i9, ?_⟩
    intro k
    constructor
    · exact i7 k
    · intro hk
      rcases i6 k hk with h | h
      · exact h
      · rw [hr] at h
        simp at h
  · by_cases hp : (lmAdmitAll max bf ⟨s, [], [], [], []⟩ keys).st.pending = []
    · have hrest : ∀ k ∈ (lmAdmitAll max bf ⟨s, [], [], [], []⟩ keys).rest,
          (mapGet (lmAdmitAll max bf ⟨s, [], [], [], []⟩ keys).st.completed k).isSome := by
        intro k hk
        rcases i5 k hk with h | h
        · rw [hp] at h
          simp at h
        · exact h
      obtain ⟨ret2, f1, f2, f3⟩ := lmFill_spec
        (lmAdmitAll max bf ⟨s, [], [], [], []⟩ keys).st.completed
        (lmAdmitAll max bf ⟨s, [], [], [], []⟩ keys).ret
        (lmAdmitAll max bf ⟨s, [], [], [], []⟩ keys).rest hrest
      have e : loadManySeq max bf s keys =
          ⟨lmFill (lmAdmitAll max bf ⟨s, [], [], [], []⟩ keys).st.completed
             (lmAdmitAll max bf ⟨s, [], [], [], []⟩ keys).ret
             (lmAdmitAll max bf ⟨s, [], [], [], []⟩ keys).rest,
           (lmAdmitAll max bf ⟨s, [], [], [], []⟩ keys).st,
           (lmAdmitAll max bf ⟨s, [], [], [], []⟩ keys).disp,
           (lmAdmitAll max bf ⟨s, [], [], [], []⟩ keys).ins⟩ := by
        simp [loadManySeq, lmFinish, hr, hp]
      rw [e]
      refine ⟨i2, i4, ret2, f1, f3 i9, ?_⟩
      intro k
      rw [f2 k]
      constructor
      · rintro (h | h)
        · exact i7 k h
        · exact i8 k h
      · intro hk
        exact i6 k hk
    · have hsome : ∀ k ∈ (lmAdmitAll max bf ⟨s, [], [], [], []⟩ keys).rest,
          (mapGet (insertAll (lmAdmitAll max bf ⟨s, [], [], [], []⟩ keys).st.completed
            (bf (lmAdmitAll max bf ⟨s, [], [], [], []⟩ keys).st.pending)) k).isSome := by
        intro k hk
        rcases i5 k hk with h | h
        · exact mapGet_insertAll_isSome_of_mem _ _ _ (htot _ k h)
        · exact mapGet_insertAll_isSome_of_isSome _ _ _ h
      obtain ⟨ret2, f1, f2, f3⟩ := lmFill_spec
        (insertAll (lmAdmitAll max bf ⟨s, [], [], [], []⟩ keys).st.completed
          (bf (lmAdmitAll max bf ⟨s, [], [], [], []⟩ keys).st.pending))
        (lmAdmitAll max bf ⟨s, [], [], [], []⟩ keys).ret
        (lmAdmitAll max bf ⟨s, [], [], [], []⟩ keys).rest hsome
      have e : loadManySeq max bf s keys =
          ⟨lmFill (insertAll (lmAdmitAll max bf ⟨s, [], [], [], []⟩ keys).st.completed
              (bf (lmAdmitAll max bf ⟨s, [], [], [], []⟩ keys).st.pending))
             (lmAdmitAll max bf ⟨s, [], [], [], []⟩ keys).ret
             (lmAdmitAll max bf ⟨s, [], [], [], []⟩ keys).rest,
           ⟨insertAll (lmAdmitAll max bf ⟨s, [], [], [], []⟩ keys).st.completed
              (bf (lmAdmitAll max bf ⟨s, [], [], [], []⟩ keys).st.pending), []⟩,
           (lmAdmitAll max bf ⟨s, [], [], [], []⟩ keys).disp
             ++ [(lmAdmitAll max bf ⟨s, [], [], [], []⟩ keys).st.pending],
           (lmAdmitAll max bf ⟨s, [], [], [], []⟩ keys).ins⟩ := by
        simp [loadManySeq, lmFinish, hr, hp]
      rw [e]
      refine ⟨i2, ?_, ret2, f1, f3 i9, ?_⟩
      · intro b hb
        rcases List.mem_append.mp hb with h | h
        · exact i4 b h
        · rw [List.mem_singleton.mp h]
          exact i1
      · intro k
        rw [f2 k]
        constructor
        · rintro (h | h)
          · exact i7 k h
          · exact i8 k h
        · intro hk
          exact i6 k hk

/-- Witness for `load_many_coalesces` at a concrete input: `load_many` of
`[1, 2, 1]` with a total batch function inserts each distinct key into
pending at most once. -/
theorem load_many_coalesces_witness :
    (loadManySeq 10 ((fun ks => ks.map fun k => (k, Except.ok k)) :
        List Nat → List (Nat × Res Nat Unit))
      (initState Nat Nat Unit) [1, 2, 1]).ins.Nodup :=
  (load_many_coalesces 10 ((fun ks => ks.map fun k => (k, Except.ok k)) :
      List Nat → List (Nat × Res Nat Unit))
    (initState Nat Nat Unit) [1, 2, 1]
    (fun ks k hk => by simpa using hk) List.nodup_nil).1

end Dataloader
